import Mathlib

/-!
Verification of the monotonic-wedge container (`mono_wedge.h`) against its
natural-language specification.

The wedge is modelled as a Lean `List α` whose head is the oldest (front)
element and whose last element is the newest (back) element, mirroring the
`std::deque<T> wedge_` member of `mono_wedge::mono_wedge<T>`.  Comparators
are boolean relations `α → α → Bool`, mirroring the `Compare` functor.
All machine indices (`size_t`) are modelled as `Nat`; the only operation
where C++ unsigned wraparound could matter is `size - i` inside the search
loop, and the loop guard `((size - i) >> i) > 0` keeps `i + 2 ≤ size`
whenever the loop continues, so `Nat` truncated subtraction agrees with
`size_t` subtraction on every reachable state.
-/

namespace MonoWedge

variable {α : Type*} [Inhabited α]

/-- Model of `std::lower_bound(begin, begin + first + len, value, comp)`
specialised to the libstdc++ iterative implementation: repeatedly halve the
range `[first, first + len)`, moving `first` past the midpoint whenever
`comp(*mid, value)` holds.  Returns the final index `first`. -/
def lowerBound (w : List α) (value : α) (comp : α → α → Bool) (first len : Nat) : Nat :=
  if h : len = 0 then first
  else
    let half := len / 2
    let mid := first + half
    if comp (w.getD mid default) value then
      lowerBound w value comp (mid + 1) (len - half - 1)
    else
      lowerBound w value comp first half
termination_by len
decreasing_by
  all_goals omega

/-- Model of the linear-scan loop of `mono_wedge::search` (mono_wedge.h,
lines 80-88).  The C++ loop starts with `search_pos = end - 1` and `i = 1`,
and at each iteration examines `*search_pos` (index `size - i`), returning
`++search_pos` (index `size - i + 1`) when `comp(*search_pos, value)` holds;
otherwise it decrements `search_pos`, increments `i`, and continues while
`((size - i) >> i) > 0`.  On loop exit it runs
`std::lower_bound(begin, ++search_pos, value, comp)`, i.e. a binary search
over the first `size - i + 1` elements. -/
def searchLinear (w : List α) (value : α) (comp : α → α → Bool) (size i : Nat) : Nat :=
  if h : (size - i) >>> i ≠ 0 then
    if comp (w.getD (size - i) default) value then size - i + 1
    else searchLinear w value comp size (i + 1)
  else
    lowerBound w value comp 0 (size - i + 1)
termination_by size - i
decreasing_by
  have h1 : size - i ≠ 0 := by
    intro h0
    rw [h0] at h
    exact h (Nat.zero_shiftRight i)
  omega

/-- Model of `mono_wedge::search` (mono_wedge.h, lines 74-89), returning the
index of the first element of the deletion range instead of an iterator
(`end` becomes the index `size`). -/
def search (w : List α) (value : α) (comp : α → α → Bool) : Nat :=
  let size := w.length
  if size ≤ 0 then size
  else searchLinear w value comp size 1

/-- Model of `mono_wedge::update` (mono_wedge.h, lines 110-115):
`erase(search(...), end)` followed by `push_back(value)`, i.e. truncate the
stored sequence at the search index and append the new value. -/
def update (w : List α) (value : α) (comp : α → α → Bool) : List α :=
  w.take (search w value comp) ++ [value]

/-- Model of `mono_wedge::min_update` (mono_wedge.h, line 50):
`update(value, std::less<T>())`. -/
def min_update [LinearOrder α] (w : List α) (value : α) : List α :=
  update w value (fun a b => decide (a < b))

/-- Model of `mono_wedge::max_update` (mono_wedge.h, line 52):
`update(value, std::greater<T>())`. -/
def max_update [LinearOrder α] (w : List α) (value : α) : List α :=
  update w value (fun a b => decide (a > b))

/-- Model of dereferencing `begin()` (mono_wedge.h, line 53), the oldest
stored element.  `none` marks the empty wedge, on which `*begin()` has no
defined result (the header performs no emptiness check). -/
def front? (w : List α) : Option α :=
  w.head?

/-- Model of `mono_wedge::pop_front` (mono_wedge.h, line 56):
`wedge_.erase(wedge_.begin())`, removal of the single oldest element.
`none` marks the empty wedge: `erase(begin())` requires a dereferenceable
iterator, and the header performs no emptiness check and raises nothing. -/
def pop_front? : List α → Option (List α)
  | [] => none
  | _ :: rest => some rest

/-- Transitivity of a comparator, the property `std::less` / `std::greater`
(strict weak orders) satisfy and that `mono_wedge.h` assumes of `Compare`. -/
def CompTrans (comp : α → α → Bool) : Prop :=
  ∀ a b c, comp a b = true → comp b c = true → comp a c = true

/-- Negative transitivity of a comparator (the other half of a strict weak
order): whenever `comp a c` holds, `a` and `c` are separated by any `b`. -/
def CompNegTrans (comp : α → α → Bool) : Prop :=
  ∀ a b c, comp a c = true → comp a b = true ∨ comp b c = true

/-- The strict less-than comparator on integers, the `std::less<int>`
instantiation used throughout the examples. -/
def intLt : Int → Int → Bool := fun a b => decide (a < b)

/- ### Instrumented search: probe positions and comparison counts -/

/-- Number of comparator calls performed by `lowerBound` on a range of
length `len` (one per halving step). -/
def lowerBoundCount (w : List α) (value : α) (comp : α → α → Bool) (first len : Nat) : Nat :=
  if h : len = 0 then 0
  else
    let half := len / 2
    let mid := first + half
    if comp (w.getD mid default) value then
      1 + lowerBoundCount w value comp (mid + 1) (len - half - 1)
    else
      1 + lowerBoundCount w value comp first half
termination_by len
decreasing_by
  all_goals omega

/-- Instrumented form of `searchLinear`: first component lists the distances
from the back (the loop counter `i`) at which the linear scan examines an
element, second component counts the comparator calls of the final binary
search (zero when the scan returns early). -/
def searchLinearT (w : List α) (value : α) (comp : α → α → Bool) (size i : Nat) :
    List Nat × Nat :=
  if h : (size - i) >>> i ≠ 0 then
    if comp (w.getD (size - i) default) value then ([i], 0)
    else
      let r := searchLinearT w value comp size (i + 1)
      (i :: r.1, r.2)
  else
    ([], lowerBoundCount w value comp 0 (size - i + 1))
termination_by size - i
decreasing_by
  have h1 : size - i ≠ 0 := by
    intro h0
    rw [h0] at h
    exact h (Nat.zero_shiftRight i)
  omega

/-- Distances from the back probed by the linear-scan phase of `search`. -/
def searchProbes (w : List α) (value : α) (comp : α → α → Bool) : List Nat :=
  if w.length ≤ 0 then []
  else (searchLinearT w value comp w.length 1).1

/-- Total number of stored elements examined by one `search` call: linear
probes plus binary-search comparisons. -/
def searchCount (w : List α) (value : α) (comp : α → α → Bool) : Nat :=
  if w.length ≤ 0 then 0
  else
    (searchLinearT w value comp w.length 1).1.length +
      (searchLinearT w value comp w.length 1).2

/- ### Sequences of operations -/

/-- An externally visible mutation of the wedge: an `update` call or a
`pop_front` call. -/
inductive WedgeOp (α : Type*) where
  | push (v : α)
  | pop

/-- Apply one operation to a wedge state.  `pop` takes the tail (the effect
of `erase(begin())` on a non-empty wedge; on the empty wedge the caller is
out of contract and the state is left empty). -/
def applyOp (comp : α → α → Bool) (w : List α) : WedgeOp α → List α
  | .push v => update w v comp
  | .pop => w.tail

/-- Run a sequence of operations starting from the empty wedge. -/
def runOps (comp : α → α → Bool) (ops : List (WedgeOp α)) : List α :=
  ops.foldl (applyOp comp) []

/-- Number of elements removed by the `erase` inside a single `update` call:
`std::distance(i, wedge_.end())` for the search result `i`. -/
def removedCount (w : List α) (value : α) (comp : α → α → Bool) : Nat :=
  w.length - search w value comp

/-- Run a sequence of plain `update` calls from a given initial state. -/
def runUpdates (comp : α → α → Bool) (w : List α) (values : List α) : List α :=
  values.foldl (fun s v => update s v comp) w

/-- Cumulative number of elements erased across a sequence of `update`
calls starting from state `w`. -/
def totalRemoved (comp : α → α → Bool) : List α → List α → Nat
  | _, [] => 0
  | w, v :: rest => removedCount w v comp + totalRemoved comp (update w v comp) rest

/- ### The sliding-window driver

Model of the caller loop in `unit_tests.cpp` (lines 55-93) and
`example.cpp` (lines 57-70): entries are `(key, value)` pairs compared on
the value alone (the `Sample` comparators), old entries are popped from the
front while `front().key + W ≤ t`, and the new sample `(t, vₜ)` is pushed
with `update`. -/

/-- Entry comparator induced by a value comparator, the model of
`Sample::operator<` / `Sample::operator>`, which compare `value` only. -/
def pairComp (vcomp : α → α → Bool) : (Nat × α) → (Nat × α) → Bool :=
  fun a b => vcomp a.2 b.2

/-- The caller-driven eviction loop: `pop_front` while the front entry's key
`k` satisfies `k + W ≤ t` (equivalently `k ≤ t - W` in integer arithmetic). -/
def evict (W t : Nat) : List (Nat × α) → List (Nat × α)
  | [] => []
  | e :: rest => if e.1 + W ≤ t then evict W t rest else e :: rest

/-- One step of the sliding-window driver at time `t`: evict aged entries,
then update the wedge with the sample `(t, values[t])`. -/
def windowStep (vcomp : α → α → Bool) (W : Nat) (values : List α)
    (w : List (Nat × α)) (t : Nat) : List (Nat × α) :=
  update (evict W t w) (t, values.getD t default) (pairComp vcomp)

/-- The wedge state after the driver has processed times `0, 1, …, t`. -/
def runWindow (vcomp : α → α → Bool) (W : Nat) (values : List α) (t : Nat) :
    List (Nat × α) :=
  (List.range (t + 1)).foldl (windowStep vcomp W values) []

/-- The values in the trailing window of width `W` ending at time `t`:
`values[j]` for `max(0, t - W + 1) ≤ j ≤ t`. -/
def windowVals (W : Nat) (values : List α) (t : Nat) : List α :=
  ((List.range (t + 1)).filter (fun j => decide (t < j + W))).map
    (fun j => values.getD j default)

/-- The sequence of `front()` values observed after each `min_update` call,
starting from the empty wedge (the unbounded-window min-wedge scenario). -/
def minFronts [LinearOrder α] (values : List α) : List (Option α) :=
  (values.foldl
    (fun acc v =>
      let w := min_update acc.1 v
      (w, acc.2 ++ [front? w]))
    (([] : List α), ([] : List (Option α)))).2

/-- The driver invariant tying the wedge state after step `t` to the value
stream: keys strictly increase front to back, values are strictly monotonic
under `vcomp`, every stored entry is a genuine in-window sample, and every
in-window sample index is covered by a stored entry that is at least as
recent and does not lose to it. -/
structure WInv (vcomp : α → α → Bool) (values : List α) (W t : Nat)
    (w : List (Nat × α)) : Prop where
  keys : w.Pairwise (fun a b => a.1 < b.1)
  vals : w.Pairwise (fun a b => vcomp a.2 b.2 = true)
  mem : ∀ e ∈ w, e.1 ≤ t ∧ t < e.1 + W ∧ e.1 < values.length ∧
    e.2 = values.getD e.1 default
  cover : ∀ j, j ≤ t → t < j + W → j < values.length →
    ∃ e ∈ w, j ≤ e.1 ∧ vcomp (values.getD j default) e.2 = false

end MonoWedge

namespace MonoWedge

variable {α : Type*} [Inhabited α]

/- ### Correctness of the two-phase search -/

theorem lowerBound_le (w : List α) (value : α) (comp : α → α → Bool) :
    ∀ len first, lowerBound w value comp first len ≤ first + len := by
  intro len
  induction len using Nat.strong_induction_on with
  | _ len ih =>
    intro first
    rw [lowerBound]
    split
    · omega
    · rename_i hlen
      dsimp only
      split
      · have h := ih (len - len / 2 - 1) (by omega) (first + len / 2 + 1)
        omega
      · have h := ih (len / 2) (by omega) first
        omega

theorem lowerBound_eq (w : List α) (value : α) (comp : α → α → Bool) (b : Nat) :
    ∀ len first, first ≤ b → b ≤ first + len →
      (∀ j, first ≤ j → j < b → comp (w.getD j default) value = true) →
      (∀ j, b ≤ j → j < first + len → comp (w.getD j default) value = false) →
      lowerBound w value comp first len = b := by
  intro len
  induction len using Nat.strong_induction_on with
  | _ len ih =>
    intro first h1 h2 hT hF
    rw [lowerBound]
    split
    · omega
    · rename_i hlen
      dsimp only
      split
      · rename_i hc
        have hmid : first + len / 2 < b := by
          by_contra hge
          push_neg at hge
          rw [hF (first + len / 2) hge (by omega)] at hc
          exact Bool.noConfusion hc
        exact ih (len - len / 2 - 1) (by omega) (first + len / 2 + 1) (by omega) (by omega)
          (fun j hj1 hj2 => hT j (by omega) hj2)
          (fun j hj1 hj2 => hF j hj1 (by omega))
      · rename_i hc
        have hmid : b ≤ first + len / 2 := by
          by_contra hlt
          push_neg at hlt
          exact hc (hT (first + len / 2) (by omega) hlt)
        exact ih (len / 2) (by omega) first h1 (by omega) hT
          (fun j hj1 hj2 => hF j hj1 (by omega))

theorem takeWhile_getD (p : α → Bool) (w : List α) :
    ∀ j, j < (w.takeWhile p).length → p (w.getD j default) = true := by
  intro j hj
  have hw : w.takeWhile p ++ w.dropWhile p = w := List.takeWhile_append_dropWhile p w
  have heq : w.getD j default = (w.takeWhile p).getD j default := by
    conv_lhs => rw [← hw]
    exact List.getD_append _ _ _ _ hj
  rw [heq, List.getD_eq_getElem _ _ hj]
  exact List.mem_takeWhile_imp (List.getElem_mem hj)

theorem dropWhile_getD (p : α → Bool) (w : List α)
    (hpart : ∀ x ∈ w.dropWhile p, p x = false) :
    ∀ j, (w.takeWhile p).length ≤ j → j < w.length → p (w.getD j default) = false := by
  intro j hj1 hj2
  have hw : w.takeWhile p ++ w.dropWhile p = w := List.takeWhile_append_dropWhile p w
  have hlen : (w.takeWhile p).length + (w.dropWhile p).length = w.length := by
    rw [← List.length_append, hw]
  have heq : w.getD j default = (w.dropWhile p).getD (j - (w.takeWhile p).length) default := by
    conv_lhs => rw [← hw]
    exact List.getD_append_right _ _ _ _ hj1
  rw [heq]
  have hidx : j - (w.takeWhile p).length < (w.dropWhile p).length := by omega
  rw [List.getD_eq_getElem _ _ hidx]
  exact hpart _ (List.getElem_mem hidx)

theorem searchLinear_eq (w : List α) (value : α) (comp : α → α → Bool) (b : Nat)
    (hbT : ∀ j, j < b → comp (w.getD j default) value = true)
    (hbF : ∀ j, b ≤ j → j < w.length → comp (w.getD j default) value = false) :
    ∀ k i, w.length - i = k → 1 ≤ i → i ≤ w.length → b ≤ w.length - i + 1 →
      searchLinear w value comp w.length i = b := by
  intro k
  induction k with
  | zero =>
    intro i hk h1 h2 hb
    rw [searchLinear]
    have hcond : (w.length - i) >>> i = 0 := by rw [hk]; exact Nat.zero_shiftRight i
    rw [dif_neg (fun hne => hne hcond)]
    exact lowerBound_eq w value comp b _ 0 (Nat.zero_le b) (by omega)
      (fun j _ hj2 => hbT j hj2)
      (fun j hj1 hj2 => hbF j hj1 (by omega))
  | succ k ih =>
    intro i hk h1 h2 hb
    rw [searchLinear]
    by_cases hcond : (w.length - i) >>> i ≠ 0
    · rw [dif_pos hcond]
      have hpow : 2 ^ i ≤ w.length - i := by
        by_contra hlt
        push_neg at hlt
        rw [Nat.shiftRight_eq_div_pow, Nat.div_eq_of_lt hlt] at hcond
        exact hcond rfl
      have h2i : 2 ≤ 2 ^ i := by
        calc 2 = 2 ^ 1 := rfl
        _ ≤ 2 ^ i := Nat.pow_le_pow_right (by omega) h1
      by_cases hc : comp (w.getD (w.length - i) default) value = true
      · rw [if_pos hc]
        have hlt : w.length - i < b := by
          by_contra hge
          push_neg at hge
          rw [hbF (w.length - i) hge (by omega)] at hc
          exact Bool.noConfusion hc
        omega
      · rw [if_neg hc]
        have hble : b ≤ w.length - i := by
          by_contra hlt
          push_neg at hlt
          exact hc (hbT (w.length - i) (by omega))
        exact ih (i + 1) (by omega) (by omega) (by omega) (by omega)
    · rw [dif_neg hcond]
      exact lowerBound_eq w value comp b _ 0 (Nat.zero_le b) (by omega)
        (fun j _ hj2 => hbT j hj2)
        (fun j hj1 hj2 => hbF j hj1 (by omega))

theorem search_eq_of_partition (w : List α) (value : α) (comp : α → α → Bool)
    (hpart : ∀ x ∈ w.dropWhile (fun e => comp e value), comp x value = false) :
    search w value comp = (w.takeWhile (fun e => comp e value)).length := by
  rw [search]
  by_cases h0 : w.length ≤ 0
  · rw [if_pos h0]
    have hnil : w = [] := List.length_eq_zero.mp (by omega)
    subst hnil
    simp
  · rw [if_neg h0]
    have hlen : (w.takeWhile (fun e => comp e value)).length ≤ w.length :=
      (w.takeWhile_sublist _).length_le
    exact searchLinear_eq w value comp _ (takeWhile_getD _ w)
      (dropWhile_getD _ w hpart) (w.length - 1) 1 (by omega) (by omega) (by omega)
      (by omega)

theorem update_eq_of_partition (w : List α) (value : α) (comp : α → α → Bool)
    (hpart : ∀ x ∈ w.dropWhile (fun e => comp e value), comp x value = false) :
    update w value comp = w.takeWhile (fun e => comp e value) ++ [value] := by
  rw [update, search_eq_of_partition w value comp hpart]
  congr 1
  calc w.take (w.takeWhile (fun e => comp e value)).length
      = (w.takeWhile (fun e => comp e value) ++
          w.dropWhile (fun e => comp e value)).take
          (w.takeWhile (fun e => comp e value)).length := by
        rw [List.takeWhile_append_dropWhile]
    _ = w.takeWhile (fun e => comp e value) := List.take_left _ _

theorem partition_of_mono (comp : α → α → Bool) (htrans : CompTrans comp) (value : α) :
    ∀ w : List α, w.Pairwise (fun a b => comp a b = true) →
      ∀ x ∈ w.dropWhile (fun e => comp e value), comp x value = false := by
  intro w
  induction w with
  | nil => intro _ x hx; simp at hx
  | cons a t ih =>
    intro hp x hx
    rw [List.pairwise_cons] at hp
    by_cases ha : comp a value = true
    · rw [List.dropWhile_cons, if_pos ha] at hx
      exact ih hp.2 x hx
    · rw [List.dropWhile_cons, if_neg ha] at hx
      rcases List.mem_cons.mp hx with rfl | hxt
      · exact Bool.eq_false_iff.mpr ha
      · cases hcv : comp x value with
        | false => rfl
        | true => exact absurd (htrans a x value (hp.1 x hxt) hcv) ha

theorem mono_update (comp : α → α → Bool) (htrans : CompTrans comp) (w : List α) (value : α)
    (hmono : w.Pairwise (fun a b => comp a b = true)) :
    (update w value comp).Pairwise (fun a b => comp a b = true) := by
  rw [update_eq_of_partition w value comp (partition_of_mono comp htrans value w hmono)]
  rw [List.pairwise_append]
  refine ⟨hmono.sublist (w.takeWhile_sublist _), List.pairwise_singleton _ _, ?_⟩
  intro a ha b hb
  rw [List.mem_singleton] at hb
  subst hb
  have h3 := List.mem_takeWhile_imp ha
  exact h3

end MonoWedge

namespace MonoWedge

variable {α : Type*} [Inhabited α]

theorem searchLinear_le (w : List α) (value : α) (comp : α → α → Bool) (size : Nat) :
    ∀ k i, size - i = k → 1 ≤ i → 1 ≤ size → searchLinear w value comp size i ≤ size := by
  intro k
  induction k with
  | zero =>
    intro i hk h1 hs
    rw [searchLinear]
    have hcond : (size - i) >>> i = 0 := by rw [hk]; exact Nat.zero_shiftRight i
    rw [dif_neg (fun hne => hne hcond)]
    have hle := lowerBound_le w value comp (size - i + 1) 0
    omega
  | succ k ih =>
    intro i hk h1 hs
    rw [searchLinear]
    by_cases hcond : (size - i) >>> i ≠ 0
    · rw [dif_pos hcond]
      have hne : size - i ≠ 0 := by
        intro h0
        rw [h0] at hcond
        exact hcond (Nat.zero_shiftRight i)
      split
      · omega
      · exact ih (i + 1) (by omega) (by omega) hs
    · rw [dif_neg hcond]
      have hle := lowerBound_le w value comp (size - i + 1) 0
      omega

theorem search_le (w : List α) (value : α) (comp : α → α → Bool) :
    search w value comp ≤ w.length := by
  rw [search]
  by_cases h0 : w.length ≤ 0
  · rw [if_pos h0]
  · rw [if_neg h0]
    exact searchLinear_le w value comp w.length (w.length - 1) 1 rfl (by omega) (by omega)

theorem intLt_trans : CompTrans intLt := by
  intro a b c hab hbc
  simp only [intLt, decide_eq_true_eq] at hab hbc ⊢
  omega

/- ### C1: effect of update on a monotonic wedge -/

/-- C1: on a wedge that is strictly monotonic under `comp`, `update v comp`
turns the stored sequence into the longest prefix of elements `e` with
`comp e v` true followed by `[v]`; the erased part is exactly the trailing
suffix of elements `e` with `comp e v` false. -/
theorem claim_C1 (comp : α → α → Bool) (htrans : CompTrans comp) (w : List α) (v : α)
    (hmono : w.Pairwise (fun x y => comp x y = true)) :
    update w v comp = w.takeWhile (fun e => comp e v) ++ [v] ∧
      ∀ x ∈ w.dropWhile (fun e => comp e v), comp x v = false := by
  have hpart := partition_of_mono comp htrans v w hmono
  exact ⟨update_eq_of_partition w v comp hpart, hpart⟩

/-- Witness for C1: the sorted min-wedge [1, 3] updated with 2 keeps the
prefix [1] and appends 2. -/
theorem claim_C1_witness :
    List.Pairwise (fun x y => intLt x y = true) [(1 : Int), 3] ∧
      update [(1 : Int), 3] 2 intLt =
        List.takeWhile (fun e => intLt e 2) [(1 : Int), 3] ++ [2] :=
  ⟨by decide, (claim_C1 intLt intLt_trans [1, 3] 2 (by decide)).1⟩

/- ### C2: the monotonicity invariant is preserved by update and pop_front -/

theorem mono_update_of_pairwise (comp : α → α → Bool) (htrans : CompTrans comp)
    (w : List α) (v : α) (hmono : w.Pairwise (fun x y => comp x y = true)) :
    (update w v comp).Pairwise (fun x y => comp x y = true) :=
  mono_update comp htrans w v hmono

theorem mono_runOps (comp : α → α → Bool) (htrans : CompTrans comp) :
    ∀ (ops : List (WedgeOp α)) (w : List α),
      w.Pairwise (fun x y => comp x y = true) →
      (ops.foldl (applyOp comp) w).Pairwise (fun x y => comp x y = true) := by
  intro ops
  induction ops with
  | nil => intro w hw; exact hw
  | cons op rest ih =>
    intro w hw
    rw [List.foldl_cons]
    refine ih _ ?_
    cases op with
    | push v => exact mono_update comp htrans w v hw
    | pop => exact hw.tail

/-- C2: after any sequence of update calls interleaved with pop_front calls,
starting from the empty wedge, the stored sequence is strictly monotonic
under the comparator front to back; in particular the front element beats
every other stored value under `comp`. -/
theorem claim_C2 (comp : α → α → Bool) (htrans : CompTrans comp) (ops : List (WedgeOp α)) :
    (runOps comp ops).Pairwise (fun x y => comp x y = true) ∧
      ∀ (f : α) (t : List α), runOps comp ops = f :: t → ∀ x ∈ t, comp f x = true := by
  have hmono : (runOps comp ops).Pairwise (fun x y => comp x y = true) :=
    mono_runOps comp htrans ops [] List.Pairwise.nil
  refine ⟨hmono, ?_⟩
  intro f t ht x hx
  rw [ht] at hmono
  exact (List.pairwise_cons.mp hmono).1 x hx

/-- Witness for C2 at the op sequence push 2, push 1, pop, push 3. -/
theorem claim_C2_witness :
    CompTrans intLt ∧
      (runOps intLt [WedgeOp.push 2, WedgeOp.push 1, WedgeOp.pop, WedgeOp.push 3]).Pairwise
        (fun x y => intLt x y = true) :=
  ⟨intLt_trans,
    (claim_C2 intLt intLt_trans [WedgeOp.push 2, WedgeOp.push 1, WedgeOp.pop, WedgeOp.push 3]).1⟩

/- ### C5: behaviour of front and pop_front on empty and non-empty wedges -/

/-- C5 counterexample: on the empty wedge the code yields no defined result
at all (`none`): `mono_wedge.h` contains no emptiness check and no
`EmptyError`; `pop_front` runs `erase(begin())` and `begin()` is not
dereferenceable, so there is no defined failure outcome with unchanged
state, contrary to the claim. -/
theorem claim_C5_counterexample :
    pop_front? ([] : List Int) = none ∧ front? ([] : List Int) = none :=
  ⟨rfl, rfl⟩

/-- C5 amended: on the empty wedge front and pop_front have no defined
result (no EmptyError exists in the code; the call is out of contract); on a
non-empty wedge front returns the oldest entry without mutation and
pop_front removes exactly the single oldest entry. -/
theorem claim_C5 (a : α) (t : List α) :
    front? (a :: t) = some a ∧ pop_front? (a :: t) = some t ∧
      front? ([] : List α) = none ∧ pop_front? ([] : List α) = none :=
  ⟨rfl, rfl, rfl, rfl⟩

/- ### C10: update never fails and never leaves the wedge empty -/

/-- C10: update always succeeds: the resulting wedge is non-empty, its back
(newest) element is the inserted value, and update on the empty wedge erases
nothing and produces the one-element sequence. -/
theorem claim_C10 (comp : α → α → Bool) (w : List α) (v : α) :
    update w v comp ≠ [] ∧ (update w v comp).getLast? = some v ∧
      update ([] : List α) v comp = [v] := by
  refine ⟨?_, ?_, rfl⟩
  · rw [update]
    simp
  · rw [update]
    exact List.getLast?_concat _

end MonoWedge

namespace MonoWedge

variable {α : Type*} [Inhabited α]

/- ### C4: tie handling and idempotence of update -/

theorem takeWhile_append_singleton_false (p : α → Bool) (w : List α) (b : α)
    (hb : p b = false) : (w ++ [b]).takeWhile p = w.takeWhile p := by
  induction w with
  | nil => simp [List.takeWhile_cons, hb]
  | cons a t ih =>
    rw [List.cons_append, List.takeWhile_cons, List.takeWhile_cons]
    by_cases ha : p a = true
    · rw [if_pos ha, if_pos ha, ih]
    · rw [if_neg ha, if_neg ha]

theorem takeWhile_append_of_all (p : α → Bool) (l₁ l₂ : List α)
    (h : ∀ x ∈ l₁, p x = true) : (l₁ ++ l₂).takeWhile p = l₁ ++ l₂.takeWhile p := by
  induction l₁ with
  | nil => simp
  | cons a t ih =>
    rw [List.cons_append, List.takeWhile_cons, if_pos (h a (List.mem_cons_self a t))]
    rw [ih (fun x hx => h x (List.mem_cons_of_mem a hx)), List.cons_append]

theorem dropWhile_append_of_all (p : α → Bool) (l₁ l₂ : List α)
    (h : ∀ x ∈ l₁, p x = true) : (l₁ ++ l₂).dropWhile p = l₂.dropWhile p := by
  induction l₁ with
  | nil => simp
  | cons a t ih =>
    rw [List.cons_append, List.dropWhile_cons, if_pos (h a (List.mem_cons_self a t))]
    exact ih (fun x hx => h x (List.mem_cons_of_mem a hx))

theorem update_idem (comp : α → α → Bool) (htrans : CompTrans comp) (w : List α) (v : α)
    (hmono : w.Pairwise (fun x y => comp x y = true)) (hirr : comp v v = false) :
    update (update w v comp) v comp = update w v comp := by
  have hpart := partition_of_mono comp htrans v w hmono
  have hu := update_eq_of_partition w v comp hpart
  have hallT : ∀ x ∈ w.takeWhile (fun e => comp e v), comp x v = true := by
    intro x hx
    have h3 := List.mem_takeWhile_imp hx
    exact h3
  have hpart2 : ∀ x ∈ (update w v comp).dropWhile (fun e => comp e v), comp x v = false := by
    rw [hu, dropWhile_append_of_all _ _ _ hallT]
    intro x hx
    rw [List.dropWhile_cons, if_neg (by rw [hirr]; exact Bool.false_ne_true)] at hx
    rcases List.mem_singleton.mp hx with rfl
    exact hirr
  rw [update_eq_of_partition (update w v comp) v comp hpart2, hu,
    takeWhile_append_of_all _ _ _ hallT, List.takeWhile_cons,
    if_neg (by rw [hirr]; exact Bool.false_ne_true)]
  simp

/-- C4: inserting a value that ties the current back element evicts that
element (updating `w1 ++ [b]` equals updating `w1`); update with the same
value twice yields the same sequence as once, and the stored size does not
grow under repeated insertion of an equal value. -/
theorem claim_C4 (comp : α → α → Bool) (htrans : CompTrans comp)
    (w1 w : List α) (b v : α)
    (hmono1 : (w1 ++ [b]).Pairwise (fun x y => comp x y = true))
    (hmono2 : w.Pairwise (fun x y => comp x y = true))
    (htie1 : comp b v = false) (htie2 : comp v b = false)
    (hirr : comp v v = false) :
    update (w1 ++ [b]) v comp = update w1 v comp ∧
      update (update w v comp) v comp = update w v comp ∧
      (update (update w v comp) v comp).length = (update w v comp).length := by
  refine ⟨?_, update_idem comp htrans w v hmono2 hirr,
    by rw [update_idem comp htrans w v hmono2 hirr]⟩
  have hmono1l : w1.Pairwise (fun x y => comp x y = true) :=
    hmono1.sublist (List.sublist_append_left w1 [b])
  have hp1 := partition_of_mono comp htrans v (w1 ++ [b]) hmono1
  have hp2 := partition_of_mono comp htrans v w1 hmono1l
  rw [update_eq_of_partition _ v comp hp1, update_eq_of_partition _ v comp hp2,
    takeWhile_append_singleton_false _ w1 b htie1]

/-- Witness for C4: the min-wedge [1, 2] updated twice with the tying value
2 evicts the old 2 and does not grow. -/
theorem claim_C4_witness :
    intLt 2 2 = false ∧
      update ([(1 : Int)] ++ [2]) 2 intLt = update [(1 : Int)] 2 intLt :=
  ⟨by decide,
    (claim_C4 intLt intLt_trans [1] [1, 2] 2 2 (by decide) (by decide) (by decide)
      (by decide) (by decide)).1⟩

/- ### C9: the concrete min-wedge scenario -/

/-- C9: for a min-wedge with unbounded window, the updates [5,3,3,4,1,2]
give the front-value trace [5,3,3,3,1,1]. -/
theorem claim_C9 :
    minFronts ([5, 3, 3, 4, 1, 2] : List Int) =
      [some 5, some 3, some 3, some 3, some 1, some 1] := by
  have e1 : min_update ([] : List Int) 5 = [5] := rfl
  have e2 : min_update [(5 : Int)] 3 = [3] := by
    rw [min_update, update_eq_of_partition _ _ _ (by decide)]
    decide
  have e3 : min_update [(3 : Int)] 3 = [3] := by
    rw [min_update, update_eq_of_partition _ _ _ (by decide)]
    decide
  have e4 : min_update [(3 : Int)] 4 = [3, 4] := by
    rw [min_update, update_eq_of_partition _ _ _ (by decide)]
    decide
  have e5 : min_update [(3 : Int), 4] 1 = [1] := by
    rw [min_update, update_eq_of_partition _ _ _ (by decide)]
    decide
  have e6 : min_update [(1 : Int)] 2 = [1, 2] := by
    rw [min_update, update_eq_of_partition _ _ _ (by decide)]
    decide
  rw [show ∀ w : List Int, ∀ v, min_update w v = update w v (fun a b => decide (a < b)) from
    fun w v => rfl] at e1 e2 e3 e4 e5 e6
  simp [minFronts, min_update, front?, e1, e2, e3, e4, e5, e6]

end MonoWedge

namespace MonoWedge

variable {α : Type*} [Inhabited α]

/- ### C6: amortized accounting of erasures -/

theorem update_length (comp : α → α → Bool) (w : List α) (v : α) :
    (update w v comp).length = search w v comp + 1 := by
  rw [update, List.length_append, List.length_take]
  have hle := search_le w v comp
  simp [Nat.min_eq_left hle]

theorem totalRemoved_add_length (comp : α → α → Bool) :
    ∀ (values w : List α),
      totalRemoved comp w values + (runUpdates comp w values).length
        = w.length + values.length := by
  intro values
  induction values with
  | nil => intro w; simp [totalRemoved, runUpdates]
  | cons v rest ih =>
    intro w
    have h1 := ih (update w v comp)
    have h2 := update_length comp w v
    have h3 := search_le w v comp
    simp only [totalRemoved, runUpdates, List.foldl_cons, List.length_cons] at h1 ⊢
    rw [removedCount]
    omega

theorem runUpdates_ne_nil (comp : α → α → Bool) :
    ∀ (values w : List α), values ≠ [] → runUpdates comp w values ≠ [] := by
  intro values
  induction values with
  | nil => intro w h; exact absurd rfl h
  | cons v rest ih =>
    intro w _
    rw [runUpdates, List.foldl_cons]
    by_cases hr : rest = []
    · subst hr
      simp [update]
    · exact ih (update w v comp) hr

/-- C6: across any sequence of update calls starting from the empty wedge,
the cumulative number of erased entries plus the current size equals the
number of updates performed (so no entry is ever erased twice), the size is
at least 1 once at least one update has run, and the cumulative erased
count is at most the number of updates. -/
theorem claim_C6 (comp : α → α → Bool) (values : List α) :
    totalRemoved comp [] values + (runUpdates comp [] values).length = values.length ∧
      (values ≠ [] → 1 ≤ (runUpdates comp [] values).length) ∧
      totalRemoved comp [] values ≤ values.length := by
  have h := totalRemoved_add_length comp values []
  simp only [List.length_nil, Nat.zero_add] at h
  refine ⟨h, ?_, by omega⟩
  intro hne
  have hnn := runUpdates_ne_nil comp values [] hne
  exact List.length_pos.mpr hnn

/-- Witness for C6 at the update sequence [1, 1]: one entry is erased, one
survives, and 1 + 1 = 2. -/
theorem claim_C6_witness :
    ([1, 1] : List Int) ≠ [] ∧ 1 ≤ (runUpdates intLt [] [(1 : Int), 1]).length :=
  ⟨by decide, (claim_C6 intLt [1, 1]).2.1 (by decide)⟩

/- ### C7 and C8: shape and cost of the dominance search -/

theorem lowerBoundCount_le (w : List α) (value : α) (comp : α → α → Bool) :
    ∀ len first, lowerBoundCount w value comp first len ≤ Nat.log2 len + 1 := by
  intro len
  induction len using Nat.strong_induction_on with
  | _ len ih =>
    intro first
    rw [lowerBoundCount]
    split
    · omega
    · rename_i hlen
      dsimp only
      have hlog : len = 1 ∨ (2 ≤ len ∧ Nat.log2 len = Nat.log2 (len / 2) + 1) := by
        rcases Nat.lt_or_ge len 2 with h2 | h2
        · left; omega
        · right
          refine ⟨h2, ?_⟩
          conv_lhs => rw [Nat.log2]
          rw [if_pos h2]
      have hlog1 : Nat.log2 1 = 0 := by
        rw [Nat.log2_eq_log_two]
        exact Nat.log_one_right 2
      split
      · have hrec := ih (len - len / 2 - 1) (by omega) (first + len / 2 + 1)
        have hmono : Nat.log2 (len - len / 2 - 1) ≤ Nat.log2 (len / 2) := by
          rw [Nat.log2_eq_log_two, Nat.log2_eq_log_two]
          exact Nat.log_mono_right (by omega)
        rcases hlog with h1 | ⟨h2, hl⟩
        · subst h1
          have hz : lowerBoundCount w value comp (first + 1 / 2 + 1) (1 - 1 / 2 - 1) = 0 := by
            rw [lowerBoundCount]
            norm_num
          rw [hz, hlog1]
        · omega
      · have hrec := ih (len / 2) (by omega) first
        have hmono : Nat.log2 (len / 2) ≤ Nat.log2 (len / 2) := le_rfl
        rcases hlog with h1 | ⟨h2, hl⟩
        · subst h1
          have hz : lowerBoundCount w value comp first (1 / 2) = 0 := by
            rw [lowerBoundCount]
            norm_num
          rw [hz, hlog1]
        · omega

theorem searchLinearT_probes (w : List α) (value : α) (comp : α → α → Bool) (size : Nat) :
    ∀ k i, size - i = k →
      (searchLinearT w value comp size i).1 =
        List.range' i (searchLinearT w value comp size i).1.length := by
  intro k
  induction k with
  | zero =>
    intro i hk
    rw [searchLinearT]
    have hcond : (size - i) >>> i = 0 := by rw [hk]; exact Nat.zero_shiftRight i
    rw [dif_neg (fun hne => hne hcond)]
    rfl
  | succ k ih =>
    intro i hk
    rw [searchLinearT]
    by_cases hcond : (size - i) >>> i ≠ 0
    · rw [dif_pos hcond]
      have hne : size - i ≠ 0 := by
        intro h0
        rw [h0] at hcond
        exact hcond (Nat.zero_shiftRight i)
      split
      · rfl
      · dsimp only
        have hr := ih (i + 1) (by omega)
        rw [List.length_cons, List.range'_succ]
        exact congrArg _ hr
    · rw [dif_neg hcond]
      rfl

theorem searchLinearT_probes_len (w : List α) (value : α) (comp : α → α → Bool) (size : Nat) :
    ∀ k i, size - i = k → 1 ≤ i →
      (searchLinearT w value comp size i).1.length ≤ Nat.log2 size + 1 - i := by
  intro k
  induction k with
  | zero =>
    intro i hk h1
    rw [searchLinearT]
    have hcond : (size - i) >>> i = 0 := by rw [hk]; exact Nat.zero_shiftRight i
    rw [dif_neg (fun hne => hne hcond)]
    simp
  | succ k ih =>
    intro i hk h1
    rw [searchLinearT]
    by_cases hcond : (size - i) >>> i ≠ 0
    · rw [dif_pos hcond]
      have hpow : 2 ^ i ≤ size - i := by
        by_contra hlt
        push_neg at hlt
        rw [Nat.shiftRight_eq_div_pow, Nat.div_eq_of_lt hlt] at hcond
        exact hcond rfl
      have hilog : i ≤ Nat.log2 size := by
        rw [Nat.log2_eq_log_two]
        exact Nat.le_log_of_pow_le (by norm_num) (le_trans hpow (Nat.sub_le size i))
      split
      · simp
        omega
      · dsimp only
        have hr := ih (i + 1) (by omega) (by omega)
        rw [List.length_cons]
        omega
    · rw [dif_neg hcond]
      simp

theorem searchLinearT_bsearch_le (w : List α) (value : α) (comp : α → α → Bool) (size : Nat) :
    ∀ k i, size - i = k → 1 ≤ i → 1 ≤ size →
      (searchLinearT w value comp size i).2 ≤ Nat.log2 size + 1 := by
  intro k
  induction k with
  | zero =>
    intro i hk h1 hs
    rw [searchLinearT]
    have hcond : (size - i) >>> i = 0 := by rw [hk]; exact Nat.zero_shiftRight i
    rw [dif_neg (fun hne => hne hcond)]
    have hle := lowerBoundCount_le w value comp (size - i + 1) 0
    have hmono : Nat.log2 (size - i + 1) ≤ Nat.log2 size := by
      rw [Nat.log2_eq_log_two, Nat.log2_eq_log_two]
      exact Nat.log_mono_right (by omega)
    simp only []
    omega
  | succ k ih =>
    intro i hk h1 hs
    rw [searchLinearT]
    by_cases hcond : (size - i) >>> i ≠ 0
    · rw [dif_pos hcond]
      split
      · simp
      · dsimp only
        exact ih (i + 1) (by omega) (by omega) hs
    · rw [dif_neg hcond]
      have hle := lowerBoundCount_le w value comp (size - i + 1) 0
      have hmono : Nat.log2 (size - i + 1) ≤ Nat.log2 size := by
        rw [Nat.log2_eq_log_two, Nat.log2_eq_log_two]
        exact Nat.log_mono_right (by omega)
      simp only []
      omega

/-- C7 amended: the dominance search starts at the last entry and steps
backward one element at a time (probe distances from the back are the
consecutive 1, 2, 3, …, not exponentially growing strides), takes at most
log2(size) linear steps, and then finishes with the `std::lower_bound`
binary search on the remaining prefix. -/
theorem claim_C7 (w : List α) (value : α) (comp : α → α → Bool) :
    searchProbes w value comp = List.range' 1 (searchProbes w value comp).length ∧
      (searchProbes w value comp).length ≤ Nat.log2 w.length := by
  have hsp : searchProbes w value comp =
      if w.length ≤ 0 then [] else (searchLinearT w value comp w.length 1).1 := rfl
  by_cases h0 : w.length ≤ 0
  · rw [hsp, if_pos h0]
    exact ⟨rfl, by simp⟩
  · rw [hsp, if_neg h0]
    refine ⟨searchLinearT_probes w value comp w.length (w.length - 1) 1 rfl, ?_⟩
    have hl := searchLinearT_probes_len w value comp w.length (w.length - 1) 1 rfl le_rfl
    omega

/-- C7 counterexample: on a 12-element wedge in which every probed element
is dominated, the linear scan probes distances [1, 2, 3] from the back
(unit strides), not the exponential strides [1, 2, 4] the claim asserts. -/
theorem claim_C7_counterexample :
    searchProbes ([0, 0, 0, 0, 0, 0, 0, 0, 0, 0, 0, 0] : List Int) 0 intLt = [1, 2, 3] ∧
      ([1, 2, 3] : List Nat) ≠ [2 ^ 0, 2 ^ 1, 2 ^ 2] := by
  refine ⟨?_, by decide⟩
  simp [searchProbes, searchLinearT, intLt]

/-- C8: one search call examines at most O(log N) stored entries: the
number of elements examined (linear probes plus binary-search comparisons)
is at most 2·log2(size) + 1.  Termination of every modelled operation holds
by construction, since all are total functions. -/
theorem claim_C8 (w : List α) (value : α) (comp : α → α → Bool) :
    searchCount w value comp ≤ 2 * Nat.log2 w.length + 1 := by
  rw [searchCount]
  by_cases h0 : w.length ≤ 0
  · rw [if_pos h0]
    omega
  · rw [if_neg h0]
    have h1 := searchLinearT_probes_len w value comp w.length (w.length - 1) 1 rfl le_rfl
    have h2 := searchLinearT_bsearch_le w value comp w.length (w.length - 1) 1 rfl le_rfl
      (by omega)
    omega

end MonoWedge

namespace MonoWedge

variable {α : Type*} [Inhabited α]

/- ### C3: sliding-window driver correctness -/

theorem evict_sublist (W t : Nat) : ∀ w : List (Nat × α), (evict W t w).Sublist w := by
  intro w
  induction w with
  | nil => rw [evict]
  | cons e rest ih =>
    rw [evict]
    split
    · exact ih.trans (List.sublist_cons_self e rest)
    · exact List.Sublist.refl _

theorem evict_mem (W t : Nat) : ∀ (w : List (Nat × α)) (e : Nat × α),
    e ∈ w → t < e.1 + W → e ∈ evict W t w := by
  intro w
  induction w with
  | nil => intro e he _; simp at he
  | cons f rest ih =>
    intro e he hw
    rw [evict]
    split
    · rename_i hf
      rcases List.mem_cons.mp he with rfl | ht
      · omega
      · exact ih e ht hw
    · exact he

theorem evict_window (W t : Nat) : ∀ w : List (Nat × α),
    w.Pairwise (fun a b => a.1 < b.1) →
    ∀ e ∈ evict W t w, t < e.1 + W := by
  intro w
  induction w with
  | nil =>
    intro _ e he
    rw [evict] at he
    simp at he
  | cons f rest ih =>
    intro hp e he
    rw [evict] at he
    rw [List.pairwise_cons] at hp
    split at he
    · exact ih hp.2 e he
    · rename_i hf
      rcases List.mem_cons.mp he with rfl | ht
      · omega
      · have hlt := hp.1 e ht
        omega

theorem winv_step (vcomp : α → α → Bool)
    (htrans : CompTrans vcomp) (hneg : CompNegTrans vcomp)
    (hirr : ∀ a, vcomp a a = false)
    (values : List α) (W t : Nat) (hW : 1 ≤ W)
    (w : List (Nat × α)) (hinv : WInv vcomp values W t w)
    (ht1 : t + 1 < values.length) :
    WInv vcomp values W (t + 1) (windowStep vcomp W values w (t + 1)) := by
  set v := values.getD (t + 1) default with hv
  have hptrans : CompTrans (pairComp vcomp) :=
    fun a b c hab hbc => htrans a.2 b.2 c.2 hab hbc
  have hsub : (evict W (t + 1) w).Sublist w := evict_sublist W (t + 1) w
  have hkeys1 : (evict W (t + 1) w).Pairwise (fun a b => a.1 < b.1) :=
    hinv.keys.sublist hsub
  have hvals1 : (evict W (t + 1) w).Pairwise (fun a b => pairComp vcomp a b = true) :=
    hinv.vals.sublist hsub
  have hpart : ∀ x ∈ (evict W (t + 1) w).dropWhile (fun e => pairComp vcomp e (t + 1, v)),
      pairComp vcomp x (t + 1, v) = false :=
    partition_of_mono (pairComp vcomp) hptrans (t + 1, v) (evict W (t + 1) w) hvals1
  have hupd : windowStep vcomp W values w (t + 1) =
      (evict W (t + 1) w).takeWhile (fun e => pairComp vcomp e (t + 1, v)) ++ [(t + 1, v)] := by
    rw [windowStep, ← hv]
    exact update_eq_of_partition _ _ _ hpart
  have hTmem : ∀ x ∈ (evict W (t + 1) w).takeWhile (fun e => pairComp vcomp e (t + 1, v)),
      x ∈ evict W (t + 1) w :=
    fun x hx => ((evict W (t + 1) w).takeWhile_sublist _).subset hx
  have hTw : ∀ x ∈ (evict W (t + 1) w).takeWhile (fun e => pairComp vcomp e (t + 1, v)),
      x ∈ w := fun x hx => hsub.subset (hTmem x hx)
  rw [hupd]
  constructor
  · rw [List.pairwise_append]
    refine ⟨hkeys1.sublist (List.takeWhile_sublist _), List.pairwise_singleton _ _, ?_⟩
    intro a ha b hb
    rw [List.mem_singleton] at hb
    subst hb
    have hm := (hinv.mem a (hTw a ha)).1
    show a.1 < t + 1
    omega
  · rw [List.pairwise_append]
    refine ⟨hvals1.sublist (List.takeWhile_sublist _), List.pairwise_singleton _ _, ?_⟩
    intro a ha b hb
    rw [List.mem_singleton] at hb
    subst hb
    have hP := List.mem_takeWhile_imp ha
    exact hP
  · intro e he
    rcases List.mem_append.mp he with hT | hlast
    · have hw2 := hTw e hT
      have hm := hinv.mem e hw2
      have hwin := evict_window W (t + 1) w hinv.keys e (hTmem e hT)
      exact ⟨by omega, hwin, hm.2.2.1, hm.2.2.2⟩
    · rw [List.mem_singleton] at hlast
      subst hlast
      exact ⟨le_rfl, by omega, ht1, hv⟩
  · intro j hj1 hj2 hj3
    by_cases hjt : j = t + 1
    · subst hjt
      refine ⟨(t + 1, v), List.mem_append_right _ (List.mem_singleton_self _), le_rfl, ?_⟩
      rw [← hv]
      exact hirr v
    · have hjle : j ≤ t := by omega
      have hjw : t < j + W := by omega
      obtain ⟨e, hew, hje, hce⟩ := hinv.cover j hjle hjw hj3
      have hee : e ∈ evict W (t + 1) w := evict_mem W (t + 1) w e hew (by omega)
      have hsplit : e ∈ (evict W (t + 1) w).takeWhile (fun e => pairComp vcomp e (t + 1, v)) ∨
          e ∈ (evict W (t + 1) w).dropWhile (fun e => pairComp vcomp e (t + 1, v)) := by
        have hTD := List.takeWhile_append_dropWhile
          (fun e => pairComp vcomp e (t + 1, v)) (evict W (t + 1) w)
        rw [← hTD] at hee
        exact List.mem_append.mp hee
      rcases hsplit with hT | hD
      · exact ⟨e, List.mem_append_left _ hT, hje, hce⟩
      · have hef : vcomp e.2 v = false := hpart e hD
        refine ⟨(t + 1, v), List.mem_append_right _ (List.mem_singleton_self _), by omega, ?_⟩
        show vcomp (values.getD j default) v = false
        cases hcv : vcomp (values.getD j default) v with
        | false => rfl
        | true =>
          rcases hneg (values.getD j default) e.2 v hcv with h | h
          · rw [hce] at h
            exact Bool.noConfusion h
          · rw [hef] at h
            exact Bool.noConfusion h

theorem winv_front (vcomp : α → α → Bool) (htrans : CompTrans vcomp)
    (values : List α) (W t : Nat) (hW : 1 ≤ W) (ht : t < values.length)
    (w : List (Nat × α)) (hinv : WInv vcomp values W t w) :
    ∃ f, w.head? = some f ∧ f.2 ∈ windowVals W values t ∧
      ∀ x ∈ windowVals W values t, vcomp x f.2 = false := by
  obtain ⟨e0, he0, _, _⟩ := hinv.cover t le_rfl (by omega) ht
  cases w with
  | nil => simp at he0
  | cons f rest =>
    refine ⟨f, rfl, ?_, ?_⟩
    · have hm := hinv.mem f (List.mem_cons_self f rest)
      rw [windowVals]
      refine List.mem_map.mpr ⟨f.1, ?_, ?_⟩
      · refine List.mem_filter.mpr ⟨List.mem_range.mpr (by omega), ?_⟩
        simp only [decide_eq_true_eq]
        omega
      · exact hm.2.2.2.symm
    · intro x hx
      rw [windowVals] at hx
      obtain ⟨j, hj, hxj⟩ := List.mem_map.mp hx
      have hjr := List.mem_filter.mp hj
      have hj1 : j < t + 1 := List.mem_range.mp hjr.1
      have hj2 : t < j + W := by
        have hd := hjr.2
        simp only [decide_eq_true_eq] at hd
        exact hd
      obtain ⟨e, hew, hje, hce⟩ := hinv.cover j (by omega) hj2 (by omega)
      rcases List.mem_cons.mp hew with rfl | hr
      · rw [hxj] at hce
        exact hce
      · have hfv : vcomp f.2 e.2 = true := (List.pairwise_cons.mp hinv.vals).1 e hr
        cases hcv : vcomp x f.2 with
        | false => rfl
        | true =>
          have h3 := htrans x f.2 e.2 hcv hfv
          rw [hxj] at hce
          rw [hce] at h3
          exact Bool.noConfusion h3

theorem winv_run (vcomp : α → α → Bool)
    (htrans : CompTrans vcomp) (hneg : CompNegTrans vcomp)
    (hirr : ∀ a, vcomp a a = false)
    (values : List α) (W : Nat) (hW : 1 ≤ W) :
    ∀ t, t < values.length → WInv vcomp values W t (runWindow vcomp W values t) := by
  intro t
  induction t with
  | zero =>
    intro ht
    have h0 : runWindow vcomp W values 0 = [(0, values.getD 0 default)] := by
      rw [runWindow, List.range_succ, List.range_zero, List.nil_append, List.foldl_cons,
        List.foldl_nil]
      rfl
    rw [h0]
    constructor
    · exact List.pairwise_singleton _ _
    · exact List.pairwise_singleton _ _
    · intro e he
      rw [List.mem_singleton] at he
      subst he
      exact ⟨le_rfl, by omega, ht, rfl⟩
    · intro j hj1 hj2 hj3
      have hj0 : j = 0 := by omega
      subst hj0
      exact ⟨(0, values.getD 0 default), List.mem_singleton_self _, le_rfl, hirr _⟩
  | succ t ih =>
    intro ht
    have hrun : runWindow vcomp W values (t + 1) =
        windowStep vcomp W values (runWindow vcomp W values t) (t + 1) := by
      rw [runWindow, runWindow, List.range_succ, List.foldl_append, List.foldl_cons,
        List.foldl_nil]
    rw [hrun]
    exact winv_step vcomp htrans hneg hirr values W t hW _ (ih (by omega)) ht

/-- C3: for every value stream, window width W at least 1, and step t, the
caller loop that first evicts aged entries (pop_front while the front key k
has k + W at most t) and then updates with the sample (t, values t) leaves
the window minimum at the front of the min-wedge and the window maximum at
the front of the max-wedge. -/
theorem claim_C3 [LinearOrder α] (values : List α) (W t : Nat)
    (hW : 1 ≤ W) (ht : t < values.length) :
    (∃ fmin, (runWindow (fun a b : α => decide (a < b)) W values t).head? = some fmin ∧
      (windowVals W values t).minimum = (fmin.2 : WithTop α)) ∧
    (∃ fmax, (runWindow (fun a b : α => decide (a > b)) W values t).head? = some fmax ∧
      (windowVals W values t).maximum = (fmax.2 : WithBot α)) := by
  constructor
  · have htrans : CompTrans (fun a b : α => decide (a < b)) := by
      intro a b c hab hbc
      simp only [decide_eq_true_eq] at hab hbc ⊢
      exact lt_trans hab hbc
    have hneg : CompNegTrans (fun a b : α => decide (a < b)) := by
      intro a b c hac
      simp only [decide_eq_true_eq] at hac ⊢
      rcases lt_or_le a b with h | h
      · exact Or.inl h
      · exact Or.inr (lt_of_le_of_lt h hac)
    have hirr : ∀ a : α, (fun x y : α => decide (x < y)) a a = false := by
      intro a
      simp
    have hinv := winv_run _ htrans hneg hirr values W hW t ht
    obtain ⟨f, hf, hmem, hall⟩ := winv_front _ htrans values W t hW ht _ hinv
    refine ⟨f, hf, ?_⟩
    rw [List.minimum_eq_coe_iff]
    refine ⟨hmem, ?_⟩
    intro b hb
    have hx := hall b hb
    rw [decide_eq_false_iff_not] at hx
    exact le_of_not_lt hx
  · have htrans : CompTrans (fun a b : α => decide (a > b)) := by
      intro a b c hab hbc
      simp only [decide_eq_true_eq] at hab hbc ⊢
      exact lt_trans hbc hab
    have hneg : CompNegTrans (fun a b : α => decide (a > b)) := by
      intro a b c hac
      simp only [decide_eq_true_eq] at hac ⊢
      rcases lt_or_le b a with h | h
      · exact Or.inl h
      · exact Or.inr (lt_of_lt_of_le hac h)
    have hirr : ∀ a : α, (fun x y : α => decide (x > y)) a a = false := by
      intro a
      simp
    have hinv := winv_run _ htrans hneg hirr values W hW t ht
    obtain ⟨f, hf, hmem, hall⟩ := winv_front _ htrans values W t hW ht _ hinv
    refine ⟨f, hf, ?_⟩
    rw [List.maximum_eq_coe_iff]
    refine ⟨hmem, ?_⟩
    intro b hb
    have hx := hall b hb
    rw [decide_eq_false_iff_not] at hx
    exact le_of_not_lt hx

/-- Witness for C3 at values [3, 1, 2], window width 2, step 2: the window
is [1, 2], the min-wedge front carries 1 and the max-wedge front carries 2. -/
theorem claim_C3_witness :
    (1 ≤ 2 ∧ 2 < ([3, 1, 2] : List Int).length) ∧
      ((∃ fmin, (runWindow (fun a b : Int => decide (a < b)) 2 [3, 1, 2] 2).head? =
          some fmin ∧ (windowVals 2 [(3 : Int), 1, 2] 2).minimum = (fmin.2 : WithTop Int)) ∧
        (∃ fmax, (runWindow (fun a b : Int => decide (a > b)) 2 [3, 1, 2] 2).head? =
          some fmax ∧ (windowVals 2 [(3 : Int), 1, 2] 2).maximum = (fmax.2 : WithBot Int))) :=
  ⟨⟨by decide, by decide⟩, claim_C3 [3, 1, 2] 2 2 (by decide) (by decide)⟩

end MonoWedge
